import Mathlib

/-!
# Verification of `smelly_python/code_smell.py`

Shallow embedding of the `code_smell` module: `Location`, `Priority`,
`CodeSmell` and `Report`, together with theorems settling the spec claims.

Conventions of the embedding:
* A raw pylint record (a flat JSON mapping) is a `RawRecord` whose fields are
  `Option`-valued: `none` models an absent key.  Python's `data['k']` raising
  `KeyError` on a missing key is modelled by `Option` monadic failure.
* Fallible constructors (`Location.__init__`, `CodeSmell.__init__`,
  `Report.__init__`) become functions into `Option`.
* Python strings are Lean `String`s; the JSON integers are `Int`.
-/

namespace SmellyPython

/-- `Location`: module, python_object, line, column, end_line, path
(`Location.__init__` copies them from the record, in this order). -/
structure Location where
  module : String
  python_object : String
  line : Int
  column : Int
  end_line : Int
  path : String
deriving DecidableEq, Repr

/-- The `Priority` enum.  The four members, in source declaration order. -/
inductive Priority where
  | error
  | warning
  | refactor
  | convention
deriving DecidableEq, Repr

/-- The glyph value carried by each enum member (`Priority.ERROR = ':red_circle:'`, …).
Not behaviourally significant, kept for fidelity. -/
def Priority.value : Priority → String
  | .error => ":red_circle:"
  | .warning => ":orange_circle:"
  | .refactor => ":yellow_circle:"
  | .convention => ":blue_circle:"

/-- `prio.name.lower()`: the lowercase variant name. -/
def Priority.lowerName : Priority → String
  | .error => "error"
  | .warning => "warning"
  | .refactor => "refactor"
  | .convention => "convention"

/-- `Priority.get_priority(name)`: builds the dict
`{prio.name.lower(): prio for prio in Priority}` and indexes it with `name`.
The dict lookup raises `KeyError` (here: `none`) when `name` is not one of the
four lowercase names; the match is exact and case-sensitive. -/
def Priority.get_priority (name : String) : Option Priority :=
  if name = "error" then some .error
  else if name = "warning" then some .warning
  else if name = "refactor" then some .refactor
  else if name = "convention" then some .convention
  else none

/-- A raw pylint record: the flat JSON mapping consumed by `CodeSmell.__init__`
and `Location.__init__`.  `none` models an absent key.  Field `type` holds the
value of the `"type"` key, `message_id` of `"message-id"`, `endLine` of
`"endLine"`, `obj` of `"obj"`. -/
structure RawRecord where
  type : Option String
  symbol : Option String
  message : Option String
  message_id : Option String
  module : Option String
  obj : Option String
  line : Option Int
  column : Option Int
  endLine : Option Int
  path : Option String
deriving DecidableEq, Repr

/-- `Location.__init__(self, data)`: reads `module`, `obj`, `line`, `column`,
`endLine`, `path` from the record, failing on the first missing key. -/
def Location.fromRecord (data : RawRecord) : Option Location :=
  data.module.bind fun module =>
  data.obj.bind fun python_object =>
  data.line.bind fun line =>
  data.column.bind fun column =>
  data.endLine.bind fun end_line =>
  data.path.bind fun path =>
  some { module, python_object, line, column, end_line, path }

/-- `CodeSmell`: a `Priority`, a `Location` and the descriptive fields. -/
structure CodeSmell where
  type : Priority
  location : Location
  symbol : String
  message : String
  message_id : String
deriving DecidableEq, Repr

/-- `CodeSmell.__init__(self, data)`: resolves `data['type']` through
`Priority.get_priority`, builds the `Location` from the same flat record, then
reads `symbol`, `message`, `message-id`.  Fails (raises, here `none`) if the
type string does not resolve or any required key is missing. -/
def CodeSmell.fromRecord (data : RawRecord) : Option CodeSmell :=
  data.type.bind fun tname =>
  (Priority.get_priority tname).bind fun type =>
  (Location.fromRecord data).bind fun location =>
  data.symbol.bind fun symbol =>
  data.message.bind fun message =>
  data.message_id.bind fun message_id =>
  some { type, location, symbol, message, message_id }

/-- The list `types = [Priority.CONVENTION, Priority.REFACTOR, Priority.WARNING,
Priority.ERROR]` from `CodeSmell.severity`. -/
def severityTypes : List Priority :=
  [.convention, .refactor, .warning, .error]

/-- `CodeSmell.severity(self)`:
`types.index(self.type) if self.type in types else -1`. -/
def CodeSmell.severity (c : CodeSmell) : Int :=
  match severityTypes.indexOf? c.type with
  | some i => (i : Int)
  | none => -1

/-- `CodeSmell.get_readable_symbol(self)`: `self.symbol.replace('-', ' ')`.
Replacing the single character `'-'` by `' '` is character-wise. -/
def CodeSmell.get_readable_symbol (c : CodeSmell) : String :=
  ⟨c.symbol.data.map fun ch => if ch = '-' then ' ' else ch⟩

/-- The JSON values `jsonify` can emit: strings, integers and objects
(an object is its ordered list of members; `json.dumps` emits members in dict
insertion order and parsing the output yields an object with these keys). -/
inductive Json where
  | str (s : String)
  | num (n : Int)
  | obj (members : List (String × Json))

/-- Key lookup in a parsed JSON object. -/
def Json.get : Json → String → Option Json
  | .obj members, k => members.lookup k
  | _, _ => none

/-- The keys of a parsed JSON object, in order. -/
def Json.keys : Json → List String
  | .obj members => members.map Prod.fst
  | _ => []

/-- `CodeSmell.jsonify(self)` as the JSON value obtained by parsing its output.
The source is `json.dumps(self, default=lambda o: {**o.__dict__,
'severity': self.severity(), 'type': self.type.name.lower()})`:
* the `CodeSmell` itself is not JSON-serializable, so `default` is applied to
  it: its `__dict__` (insertion order `type`, `location`, `symbol`, `message`,
  `message_id`) with the existing `type` key overridden in place by the
  lowercase name and a new `severity` key appended;
* the `location` value is a `Location` object, also not JSON-serializable, so
  the same `default` lambda is applied to it: its `__dict__` (insertion order
  `module`, `python_object`, `line`, `column`, `end_line`, `path`) with the new
  keys `severity` and `type` appended, holding `self.severity()` and the
  lowercase type name of the outer `CodeSmell`. -/
def CodeSmell.jsonify (c : CodeSmell) : Json :=
  .obj
    [ ("type", .str c.type.lowerName),
      ("location", .obj
        [ ("module", .str c.location.module),
          ("python_object", .str c.location.python_object),
          ("line", .num c.location.line),
          ("column", .num c.location.column),
          ("end_line", .num c.location.end_line),
          ("path", .str c.location.path),
          ("severity", .num c.severity),
          ("type", .str c.type.lowerName) ]),
      ("symbol", .str c.symbol),
      ("message", .str c.message),
      ("message_id", .str c.message_id),
      ("severity", .num c.severity) ]

/-- The key list of the nested `location` object in `jsonify`'s output
(`[]` if the `location` member were absent or not an object). -/
def CodeSmell.jsonifyLocationKeys (c : CodeSmell) : List String :=
  match c.jsonify.get "location" with
  | some j => j.keys
  | none => []

/-- Stable insertion of a smell into a list sorted by non-increasing severity:
the element goes before the first entry of severity `≤` its own, hence after
every strictly more severe entry and before every equally severe one. -/
def insertDesc (x : CodeSmell) : List CodeSmell → List CodeSmell
  | [] => [x]
  | y :: ys => if y.severity ≤ x.severity then x :: y :: ys else y :: insertDesc x ys

/-- `sorted(ret, key=lambda s: s.severity(), reverse=True)`: Python's `sorted`
is a stable sort; with `reverse=True` it orders by non-increasing key while
preserving the input order of equal keys.  Realized as a stable insertion
sort. -/
def sortBySeverityDesc : List CodeSmell → List CodeSmell
  | [] => []
  | x :: xs => insertDesc x (sortBySeverityDesc xs)

/-- The `for smell in json_content: ret.append(CodeSmell(smell))` loop of
`Report.convert_dict`: converts every record, failing as soon as one record
fails. -/
def convertList : List RawRecord → Option (List CodeSmell)
  | [] => some []
  | r :: rs =>
      (CodeSmell.fromRecord r).bind fun c =>
      (convertList rs).bind fun cs =>
      some (c :: cs)

/-- `Report.convert_dict(json_content)`: convert every record, then stably sort
by descending severity. -/
def convert_dict (json_content : List RawRecord) : Option (List CodeSmell) :=
  (convertList json_content).map sortBySeverityDesc

/-- `Report`: the converted, sorted smells and the opaque grade (the grade's
type is opaque to the module, hence a type parameter). -/
structure Report (γ : Type) where
  code_smells : List CodeSmell
  grade : γ
deriving DecidableEq

/-- `Report.__init__(self, json_content, grade)`: stores
`convert_dict(json_content)` and the grade unchanged; any conversion failure
propagates and no `Report` is produced. -/
def Report.mk? {γ : Type} (json_content : List RawRecord) (grade : γ) :
    Option (Report γ) :=
  (convert_dict json_content).bind fun code_smells =>
  some { code_smells, grade }

/-- The `key_func` of `Report.group_by_file`. -/
def pathKey (c : CodeSmell) : String := c.location.path

/-- `itertools.groupby(code_smells, key_func)`: splits the list into maximal
consecutive runs of elements sharing the same key, in order. -/
def groupRuns : List CodeSmell → List (List CodeSmell)
  | [] => []
  | a :: l =>
      (a :: l.takeWhile fun x => pathKey x == pathKey a) ::
        groupRuns (l.dropWhile fun x => pathKey x == pathKey a)
  termination_by l => l.length
  decreasing_by
    simp only [List.length_cons]
    exact Nat.lt_succ_of_le (List.dropWhile_sublist _).length_le

/-- `Report.group_by_file(self)`: groups `self.code_smells` into consecutive
runs sharing `location.path`. -/
def Report.group_by_file {γ : Type} (r : Report γ) : List (List CodeSmell) :=
  groupRuns r.code_smells

/-! ## Concrete sample data, used by witnesses and counterexamples -/

/-- A complete, valid pylint record. -/
def sampleRecord : RawRecord :=
  { type := some "error"
    symbol := some "unused-variable"
    message := some "unused variable x"
    message_id := some "W0612"
    module := some "pkg.mod"
    obj := some "f"
    line := some 4
    column := some 2
    endLine := some 4
    path := some "pkg/mod.py" }

/-- The `CodeSmell` built from `sampleRecord`. -/
def sampleSmell : CodeSmell :=
  { type := .error
    location :=
      { module := "pkg.mod", python_object := "f", line := 4, column := 2
        end_line := 4, path := "pkg/mod.py" }
    symbol := "unused-variable"
    message := "unused variable x"
    message_id := "W0612" }

/-- A sample location on path `a.py`. -/
def locA : Location :=
  { module := "a", python_object := "", line := 1, column := 0, end_line := 1
    path := "a.py" }

/-- A sample location on path `b.py`. -/
def locB : Location :=
  { module := "b", python_object := "", line := 2, column := 0, end_line := 2
    path := "b.py" }

/-- A smell with the given priority at the given location. -/
def mkSmell (p : Priority) (loc : Location) : CodeSmell :=
  { type := p, location := loc, symbol := "no-self-use", message := "m"
    message_id := "R0201" }

/-! ## Claim theorems -/

example : CodeSmell.fromRecord sampleRecord = some sampleSmell := by decide

/-- C4: `severity()` returns exactly 0 for a `CodeSmell` whose type is
CONVENTION, 1 for REFACTOR, 2 for WARNING and 3 for ERROR, making severity
monotone in the fixed ordering CONVENTION < REFACTOR < WARNING < ERROR. -/
theorem severity_of_each_priority (c : CodeSmell) :
    (c.type = .convention → c.severity = 0) ∧
    (c.type = .refactor → c.severity = 1) ∧
    (c.type = .warning → c.severity = 2) ∧
    (c.type = .error → c.severity = 3) := by
  refine ⟨?_, ?_, ?_, ?_⟩ <;> intro h <;>
    simp [CodeSmell.severity, severityTypes, h, List.indexOf?]

/-- Witness for C4 at the four concrete priorities. -/
theorem severity_of_each_priority_witness :
    (mkSmell .convention locA).severity = 0 ∧
    (mkSmell .refactor locA).severity = 1 ∧
    (mkSmell .warning locA).severity = 2 ∧
    (mkSmell .error locA).severity = 3 :=
  ⟨(severity_of_each_priority (mkSmell .convention locA)).1 rfl,
   (severity_of_each_priority (mkSmell .refactor locA)).2.1 rfl,
   (severity_of_each_priority (mkSmell .warning locA)).2.2.1 rfl,
   (severity_of_each_priority (mkSmell .error locA)).2.2.2 rfl⟩

/-- C8: `get_readable_symbol()` returns the stored symbol with every hyphen
replaced by a space: the result has the same length as the stored symbol and
its character at each position `i` is the symbol's character there, with `'-'`
mapped to `' '` and every other character unchanged.  In particular
`"no-self-use"` becomes `"no self use"`, and a hyphen-free symbol is returned
unchanged.  It is a pure function of the smell, so the stored `symbol` field
itself is untouched. -/
theorem get_readable_symbol_spec (c : CodeSmell) :
    c.get_readable_symbol.data.length = c.symbol.data.length ∧
    (∀ (i : Nat) (hi : i < c.symbol.data.length)
        (hj : i < c.get_readable_symbol.data.length),
      c.get_readable_symbol.data.get ⟨i, hj⟩ =
        if c.symbol.data.get ⟨i, hi⟩ = '-' then ' '
        else c.symbol.data.get ⟨i, hi⟩) ∧
    (c.symbol = "no-self-use" → c.get_readable_symbol = "no self use") ∧
    ((∀ ch ∈ c.symbol.data, ch ≠ '-') → c.get_readable_symbol = c.symbol) := by
  refine ⟨?_, ?_, ?_, ?_⟩
  · simp [CodeSmell.get_readable_symbol]
  · intro i hi hj
    simp [CodeSmell.get_readable_symbol]
  · intro h
    simp [CodeSmell.get_readable_symbol, h]
  · intro h
    show String.mk (c.symbol.data.map fun ch => if ch = '-' then ' ' else ch) = c.symbol
    have hmap : (c.symbol.data.map fun ch => if ch = '-' then ' ' else ch) = c.symbol.data := by
      calc (c.symbol.data.map fun ch => if ch = '-' then ' ' else ch)
          = c.symbol.data.map id := List.map_congr_left fun a ha => by
            simp [h a ha]
        _ = c.symbol.data := List.map_id _
    rw [hmap]

/-- Witness for C8: the hyphenated and the hyphen-free case at concrete
symbols. -/
theorem get_readable_symbol_spec_witness :
    (mkSmell .warning locA).get_readable_symbol.data.length =
      (mkSmell .warning locA).symbol.data.length ∧
    (mkSmell .warning locA).get_readable_symbol.data.get ⟨2, by decide⟩ = ' ' ∧
    (mkSmell .warning locA).get_readable_symbol = "no self use" ∧
    ({ sampleSmell with symbol := "cyclic" } : CodeSmell).get_readable_symbol
      = "cyclic" := by
  refine ⟨(get_readable_symbol_spec (mkSmell .warning locA)).1, ?_,
    (get_readable_symbol_spec (mkSmell .warning locA)).2.2.1 rfl,
    (get_readable_symbol_spec { sampleSmell with symbol := "cyclic" }).2.2.2
      (by decide)⟩
  have h := (get_readable_symbol_spec (mkSmell .warning locA)).2.1 2
    (by decide) (by decide)
  calc (mkSmell .warning locA).get_readable_symbol.data.get ⟨2, by decide⟩
      = if (mkSmell .warning locA).symbol.data.get ⟨2, by decide⟩ = '-' then ' '
        else (mkSmell .warning locA).symbol.data.get ⟨2, by decide⟩ := h
    _ = ' ' := by decide

/-- C9: `severity()` is total: the four-variant enumeration is closed (every
`Priority` occurs in the lookup table, so the defensive `-1` branch of the
source is dead), no `CodeSmell` ever gets severity `-1`, and every smell built
through the public constructor has severity in `[0, 3]`. -/
theorem severity_sentinel_unreachable :
    (∀ p : Priority, p ∈ severityTypes) ∧
    (∀ c : CodeSmell, c.severity ≠ -1) ∧
    (∀ (r : RawRecord) (c : CodeSmell), CodeSmell.fromRecord r = some c →
      0 ≤ c.severity ∧ c.severity ≤ 3) := by
  have hval : ∀ c : CodeSmell, c.severity = 0 ∨ c.severity = 1 ∨
      c.severity = 2 ∨ c.severity = 3 := by
    intro c
    cases h : c.type <;> simp [CodeSmell.severity, severityTypes, h, List.indexOf?]
  refine ⟨fun p => by cases p <;> decide, fun c => ?_, fun r c _ => ?_⟩
  · rcases hval c with h | h | h | h <;> rw [h] <;> decide
  · rcases hval c with h | h | h | h <;> rw [h] <;> exact ⟨by decide, by decide⟩

/-- Witness for C9 on the smell built from `sampleRecord`. -/
theorem severity_sentinel_unreachable_witness :
    0 ≤ sampleSmell.severity ∧ sampleSmell.severity ≤ 3 :=
  severity_sentinel_unreachable.2.2 sampleRecord sampleSmell (by decide)

/-- Flattening the groups gives back the original list. -/
lemma groupRuns_flatten (l : List CodeSmell) : (groupRuns l).flatten = l := by
  induction l using groupRuns.induct with
  | case1 => simp [groupRuns]
  | case2 a l ih =>
      rw [groupRuns]
      simp only [List.flatten_cons, ih, List.cons_append,
        List.takeWhile_append_dropWhile]

/-- Every group produced by `groupRuns` is non-empty. -/
lemma groupRuns_ne_nil (l : List CodeSmell) :
    ∀ grp ∈ groupRuns l, grp ≠ [] := by
  induction l using groupRuns.induct with
  | case1 => simp [groupRuns]
  | case2 a l ih =>
      rw [groupRuns]
      intro grp hg
      rcases List.mem_cons.mp hg with h | h
      · simp [h]
      · exact ih grp h

/-- All members of one group produced by `groupRuns` share the path key. -/
lemma groupRuns_same_path (l : List CodeSmell) :
    ∀ grp ∈ groupRuns l, ∀ x ∈ grp, ∀ y ∈ grp, pathKey x = pathKey y := by
  induction l using groupRuns.induct with
  | case1 => simp [groupRuns]
  | case2 a l ih =>
      rw [groupRuns]
      intro grp hg
      rcases List.mem_cons.mp hg with h | h
      · subst h
        have key : ∀ x ∈ a :: (l.takeWhile fun x => pathKey x == pathKey a),
            pathKey x = pathKey a := by
          intro x hx
          rcases List.mem_cons.mp hx with h | h
          · rw [h]
          · have hpx := List.mem_takeWhile_imp h
            exact eq_of_beq hpx
        exact fun x hx y hy => (key x hx).trans (key y hy).symm
      · exact ih grp h

/-- C10: `group_by_file()` is a partition of `code_smells` into consecutive
runs: concatenating the groups in order gives back exactly the `code_smells`
sequence, every group is non-empty, and all members of a group share
`location.path`. -/
theorem group_by_file_partition {γ : Type} (r : Report γ) :
    r.group_by_file.flatten = r.code_smells ∧
    (∀ grp ∈ r.group_by_file, grp ≠ []) ∧
    (∀ grp ∈ r.group_by_file, ∀ x ∈ grp, ∀ y ∈ grp,
      x.location.path = y.location.path) :=
  ⟨groupRuns_flatten r.code_smells, groupRuns_ne_nil r.code_smells,
   groupRuns_same_path r.code_smells⟩

/-- C6: on an already-sorted list, grouping merges only consecutive runs of
equal `location.path`: paths `[A, A, B]` give the two groups `[[A, A], [B]]`,
while paths `[A, B, A]` give the three groups `[[A], [B], [A]]` (the two
`A`-smells are not merged across the `B`-smell). -/
theorem group_by_file_adjacent_runs {γ : Type} (g : γ) :
    (∀ a b c : CodeSmell,
      a.location.path = b.location.path → b.location.path ≠ c.location.path →
      (Report.mk [a, b, c] g).group_by_file = [[a, b], [c]]) ∧
    (∀ x y z : CodeSmell,
      x.location.path ≠ y.location.path → y.location.path ≠ z.location.path →
      x.location.path = z.location.path →
      (Report.mk [x, y, z] g).group_by_file = [[x], [y], [z]]) := by
  constructor
  · intro a b c hab hbc
    have pb : (b.location.path == a.location.path) = true := beq_iff_eq.mpr hab.symm
    have pc : (c.location.path == a.location.path) = false := by
      rw [beq_eq_false_iff_ne]
      exact fun h => hbc (hab.symm.trans h.symm)
    show groupRuns [a, b, c] = [[a, b], [c]]
    simp [groupRuns, pathKey, pb, pc]
  · intro x y z hxy hyz hxz
    have py : (y.location.path == x.location.path) = false := by
      rw [beq_eq_false_iff_ne]
      exact fun h => hxy h.symm
    have pz : (z.location.path == y.location.path) = false := by
      rw [beq_eq_false_iff_ne]
      exact fun h => hyz h.symm
    show groupRuns [x, y, z] = [[x], [y], [z]]
    simp [groupRuns, pathKey, py, pz]

/-- Witness for C6: concrete smells on paths `a.py`, `a.py`, `b.py` and
`a.py`, `b.py`, `a.py`. -/
theorem group_by_file_adjacent_runs_witness :
    (Report.mk [mkSmell .error locA, mkSmell .error locA, mkSmell .error locB]
        (0 : Int)).group_by_file =
      [[mkSmell .error locA, mkSmell .error locA], [mkSmell .error locB]] ∧
    (Report.mk [mkSmell .error locA, mkSmell .error locB, mkSmell .error locA]
        (0 : Int)).group_by_file =
      [[mkSmell .error locA], [mkSmell .error locB], [mkSmell .error locA]] :=
  ⟨(group_by_file_adjacent_runs (0 : Int)).1 _ _ _ (by decide) (by decide),
   (group_by_file_adjacent_runs (0 : Int)).2 _ _ _ (by decide) (by decide) (by decide)⟩

/-- A record whose conversion fails makes the whole conversion loop fail. -/
lemma convertList_eq_none_of_mem (records : List RawRecord) (r : RawRecord)
    (hr : r ∈ records) (hfail : CodeSmell.fromRecord r = none) :
    convertList records = none := by
  induction records with
  | nil => cases hr
  | cons head tail ih =>
      rcases List.mem_cons.mp hr with h | h
      · subst h
        simp [convertList, hfail]
      · cases hh : CodeSmell.fromRecord head <;>
          simp [convertList, hh, ih h]

/-- C7: if conversion of any single record fails, the whole `Report`
construction fails and no partial `Report` is produced. -/
theorem report_construction_all_or_nothing {γ : Type}
    (records : List RawRecord) (grade : γ) (r : RawRecord)
    (hr : r ∈ records) (hfail : CodeSmell.fromRecord r = none) :
    Report.mk? records grade = none := by
  rw [Report.mk?, convert_dict, convertList_eq_none_of_mem records r hr hfail]
  rfl

/-- Witness for C7: a batch whose second record lacks the `path` key. -/
theorem report_construction_all_or_nothing_witness :
    Report.mk? [sampleRecord, { sampleRecord with path := none }] (0 : Int) =
      none :=
  report_construction_all_or_nothing _ 0 { sampleRecord with path := none }
    (by decide) (by decide)

/-- `get_priority` succeeds exactly on the four lowercase variant names. -/
lemma get_priority_isSome_iff (name : String) :
    (Priority.get_priority name).isSome ↔
      name = "error" ∨ name = "warning" ∨ name = "refactor" ∨
      name = "convention" := by
  rw [Priority.get_priority]
  split_ifs <;> simp_all

/-- `Location` construction succeeds exactly when its six keys are present. -/
lemma location_fromRecord_isSome_iff (r : RawRecord) :
    (Location.fromRecord r).isSome ↔
      r.module.isSome ∧ r.obj.isSome ∧ r.line.isSome ∧ r.column.isSome ∧
      r.endLine.isSome ∧ r.path.isSome := by
  obtain ⟨t, sy, m, mi, mo, ob, li, co, el, pa⟩ := r
  cases mo <;> cases ob <;> cases li <;> cases co <;> cases el <;> cases pa <;>
    simp [Location.fromRecord]

/-- C5: `CodeSmell` construction succeeds iff the record's `type` value is
exactly one of the lowercase strings `error`, `warning`, `refactor`,
`convention` (case-sensitive) and all required keys (`type`, `symbol`,
`message`, `message-id`, `module`, `obj`, `line`, `column`, `endLine`,
`path`) are present; otherwise it fails with a lookup/missing-key failure. -/
theorem fromRecord_isSome_iff (r : RawRecord) :
    (CodeSmell.fromRecord r).isSome ↔
      (r.type = some "error" ∨ r.type = some "warning" ∨
        r.type = some "refactor" ∨ r.type = some "convention") ∧
      r.symbol.isSome ∧ r.message.isSome ∧ r.message_id.isSome ∧
      r.module.isSome ∧ r.obj.isSome ∧ r.line.isSome ∧ r.column.isSome ∧
      r.endLine.isSome ∧ r.path.isSome := by
  cases ht : r.type with
  | none => simp [CodeSmell.fromRecord, ht]
  | some tname =>
      cases hp : Priority.get_priority tname with
      | none =>
          have htn : ¬(tname = "error" ∨ tname = "warning" ∨
              tname = "refactor" ∨ tname = "convention") := by
            rw [← get_priority_isSome_iff, hp]
            simp
          simp only [CodeSmell.fromRecord, ht, hp, Option.some_bind,
            Option.none_bind, Option.isSome_none, Bool.false_eq_true,
            false_iff]
          intro hc
          exact htn (by simpa [ht] using hc.1)
      | some p =>
          cases hloc : Location.fromRecord r with
          | none =>
              have := location_fromRecord_isSome_iff r
              rw [hloc] at this
              simp only [CodeSmell.fromRecord, ht, hp, hloc, Option.some_bind,
                Option.none_bind, Option.isSome_none, Bool.false_eq_true,
                false_iff]
              intro hc
              have hfields : r.module.isSome ∧ r.obj.isSome ∧ r.line.isSome ∧
                  r.column.isSome ∧ r.endLine.isSome ∧ r.path.isSome :=
                ⟨hc.2.2.2.2.1, hc.2.2.2.2.2.1, hc.2.2.2.2.2.2.1,
                 hc.2.2.2.2.2.2.2.1, hc.2.2.2.2.2.2.2.2.1, hc.2.2.2.2.2.2.2.2.2⟩
              simp only [Option.isSome_none, Bool.false_eq_true, false_iff]
                at this
              exact this hfields
          | some loc =>
              have htn : tname = "error" ∨ tname = "warning" ∨
                  tname = "refactor" ∨ tname = "convention" := by
                rw [← get_priority_isSome_iff, hp]
                rfl
              have hfields := (location_fromRecord_isSome_iff r).mp (by rw [hloc]; rfl)
              cases hsy : r.symbol <;> cases hm : r.message <;>
                cases hmi : r.message_id <;>
                simp_all [CodeSmell.fromRecord]

/-- Witness for C5 in both directions: the complete `sampleRecord` converts,
and dropping its `path` key makes conversion fail. -/
theorem fromRecord_isSome_iff_witness :
    ((CodeSmell.fromRecord sampleRecord).isSome ↔
      (sampleRecord.type = some "error" ∨ sampleRecord.type = some "warning" ∨
        sampleRecord.type = some "refactor" ∨
        sampleRecord.type = some "convention") ∧
      sampleRecord.symbol.isSome ∧ sampleRecord.message.isSome ∧
      sampleRecord.message_id.isSome ∧ sampleRecord.module.isSome ∧
      sampleRecord.obj.isSome ∧ sampleRecord.line.isSome ∧
      sampleRecord.column.isSome ∧ sampleRecord.endLine.isSome ∧
      sampleRecord.path.isSome) ∧
    (CodeSmell.fromRecord sampleRecord).isSome :=
  ⟨fromRecord_isSome_iff sampleRecord,
   (fromRecord_isSome_iff sampleRecord).mpr (by decide)⟩

/-- `insertDesc` inserts: the result is a permutation of consing. -/
lemma insertDesc_perm (x : CodeSmell) (l : List CodeSmell) :
    (insertDesc x l).Perm (x :: l) := by
  induction l with
  | nil => exact List.Perm.refl _
  | cons y ys ih =>
      rw [insertDesc]
      split
      · exact List.Perm.refl _
      · exact (ih.cons y).trans (List.Perm.swap x y ys)

/-- `insertDesc` preserves sortedness by non-increasing severity. -/
lemma insertDesc_pairwise (x : CodeSmell) (l : List CodeSmell)
    (h : l.Pairwise fun a b => b.severity ≤ a.severity) :
    (insertDesc x l).Pairwise fun a b => b.severity ≤ a.severity := by
  induction l with
  | nil => simp [insertDesc]
  | cons y ys ih =>
      rw [insertDesc]
      rcases List.pairwise_cons.mp h with ⟨hy, hys⟩
      split
      · rename_i hle
        refine List.pairwise_cons.mpr ⟨?_, h⟩
        intro z hz
        rcases List.mem_cons.mp hz with rfl | hz
        · exact hle
        · exact le_trans (hy z hz) hle
      · rename_i hlt
        refine List.pairwise_cons.mpr ⟨?_, ih hys⟩
        intro z hz
        rcases List.mem_cons.mp ((insertDesc_perm x ys).mem_iff.mp hz) with
          rfl | hz'
        · exact le_of_not_le hlt
        · exact hy z hz'

/-- Stability of one insertion: elements of a fixed severity `s` keep their
order; an inserted element of severity `s` lands in front of them, because it
only moves past strictly more severe elements. -/
lemma insertDesc_filter (s : Int) (x : CodeSmell) (l : List CodeSmell) :
    (insertDesc x l).filter (fun c => c.severity == s) =
      if x.severity = s then x :: l.filter (fun c => c.severity == s)
      else l.filter (fun c => c.severity == s) := by
  induction l with
  | nil =>
      by_cases hx : x.severity = s <;>
        simp [insertDesc, List.filter_cons, beq_iff_eq, hx]
  | cons y ys ih =>
      rw [insertDesc]
      split
      · rename_i hle
        by_cases hx : x.severity = s <;>
          simp [List.filter_cons, beq_iff_eq, hx]
      · rename_i hlt
        have hxy : x.severity < y.severity := not_le.mp hlt
        by_cases hx : x.severity = s
        · have hy : ¬y.severity = s := by omega
          simp [List.filter_cons, beq_iff_eq, hx, hy, ih]
        · simp [List.filter_cons, beq_iff_eq, hx, ih]

/-- The stable descending sort permutes its input. -/
lemma sortBySeverityDesc_perm (l : List CodeSmell) :
    (sortBySeverityDesc l).Perm l := by
  induction l with
  | nil => exact List.Perm.refl _
  | cons x xs ih => exact (insertDesc_perm x _).trans (ih.cons x)

/-- The stable descending sort sorts by non-increasing severity. -/
lemma sortBySeverityDesc_pairwise (l : List CodeSmell) :
    (sortBySeverityDesc l).Pairwise fun a b => b.severity ≤ a.severity := by
  induction l with
  | nil => simp [sortBySeverityDesc]
  | cons x xs ih => exact insertDesc_pairwise x _ ih

/-- Stability: for every severity `s`, the subsequence of severity-`s` smells
is unchanged by the sort. -/
lemma sortBySeverityDesc_filter (l : List CodeSmell) (s : Int) :
    (sortBySeverityDesc l).filter (fun c => c.severity == s) =
      l.filter (fun c => c.severity == s) := by
  induction l with
  | nil => rfl
  | cons x xs ih =>
      rw [sortBySeverityDesc, insertDesc_filter]
      by_cases hx : x.severity = s <;>
        simp [List.filter_cons, beq_iff_eq, hx, ih]

/-- C3: a successfully constructed `Report` has `code_smells` sorted by
non-increasing `severity()`, and the sort is stable: for each severity value,
the smells of that severity appear in exactly the order their records had in
the input (their subsequence is preserved, and the whole list is a permutation
of the converted input). -/
theorem report_code_smells_sorted_stable {γ : Type} (records : List RawRecord)
    (grade : γ) (rep : Report γ) (h : Report.mk? records grade = some rep) :
    rep.code_smells.Pairwise (fun a b => b.severity ≤ a.severity) ∧
    ∀ smells, convertList records = some smells →
      rep.code_smells.Perm smells ∧
      ∀ s : Int, rep.code_smells.filter (fun c => c.severity == s) =
        smells.filter (fun c => c.severity == s) := by
  obtain ⟨sm0, hsm0, hrep⟩ :
      ∃ sm0, convertList records = some sm0 ∧
        rep = ⟨sortBySeverityDesc sm0, grade⟩ := by
    cases hcl : convertList records with
    | none =>
        rw [Report.mk?, convert_dict, hcl] at h
        cases h
    | some sm0 =>
        rw [Report.mk?, convert_dict, hcl] at h
        simp only [Option.map_some', Option.some_bind] at h
        exact ⟨sm0, rfl, (Option.some_inj.mp h).symm⟩
  subst hrep
  refine ⟨sortBySeverityDesc_pairwise sm0, ?_⟩
  intro smells hsm
  have heq : smells = sm0 := by
    rw [hsm0] at hsm
    exact (Option.some_inj.mp hsm).symm
  subst heq
  exact ⟨sortBySeverityDesc_perm smells,
    fun s => sortBySeverityDesc_filter smells s⟩

/-- The `sampleRecord` with its type switched to `convention`. -/
def recConvention : RawRecord := { sampleRecord with type := some "convention" }

/-- The smell built from `recConvention`. -/
def smellConvention : CodeSmell := { sampleSmell with type := .convention }

/-- Witness for C3: a convention record followed by an error record; the
report lists the error smell first, and the severity-0 subsequence is
preserved. -/
theorem report_code_smells_sorted_stable_witness :
    (Report.mk [sampleSmell, smellConvention] (0 : Int)).code_smells.Pairwise
      (fun a b => b.severity ≤ a.severity) ∧
    (Report.mk [sampleSmell, smellConvention] (0 : Int)).code_smells.filter
        (fun c => c.severity == (0 : Int)) =
      [smellConvention, sampleSmell].filter (fun c => c.severity == (0 : Int)) := by
  have h := report_code_smells_sorted_stable [recConvention, sampleRecord]
    (0 : Int) ⟨[sampleSmell, smellConvention], 0⟩ (by decide)
  exact ⟨h.1, (h.2 [smellConvention, sampleSmell] (by decide)).2 0⟩

/-- C2: parsing `jsonify()`'s output yields an object whose top-level
`severity` member is the integer `severity()`, whose top-level `type` member
is the lowercase `Priority` variant name, and whose `location` member is a
nested JSON object, not a string. -/
theorem jsonify_severity_type_location (r : RawRecord) (c : CodeSmell)
    (_h : CodeSmell.fromRecord r = some c) :
    c.jsonify.get "severity" = some (.num c.severity) ∧
    c.jsonify.get "type" = some (.str c.type.lowerName) ∧
    ∃ ms, c.jsonify.get "location" = some (.obj ms) := by
  refine ⟨?_, ?_, ?_⟩
  · simp [CodeSmell.jsonify, Json.get, List.lookup]
  · simp [CodeSmell.jsonify, Json.get, List.lookup]
  · exact ⟨[("module", .str c.location.module),
      ("python_object", .str c.location.python_object),
      ("line", .num c.location.line), ("column", .num c.location.column),
      ("end_line", .num c.location.end_line), ("path", .str c.location.path),
      ("severity", .num c.severity), ("type", .str c.type.lowerName)],
      by simp [CodeSmell.jsonify, Json.get, List.lookup]⟩

/-- Witness for C2 on the smell built from `sampleRecord`. -/
theorem jsonify_severity_type_location_witness :
    sampleSmell.jsonify.get "severity" = some (.num sampleSmell.severity) ∧
    sampleSmell.jsonify.get "type" = some (.str sampleSmell.type.lowerName) ∧
    ∃ ms, sampleSmell.jsonify.get "location" = some (.obj ms) :=
  jsonify_severity_type_location sampleRecord sampleSmell (by decide)

/-- Counterexample to C1 as stated: for the smell built from `sampleRecord`,
the keys of the nested `location` object are not exactly the six `Location`
fields — `json.dumps` applies the `default` lambda to the nested `Location`
too, so the injected `severity` and `type` keys also appear. -/
theorem jsonify_location_keys_not_exact :
    CodeSmell.fromRecord sampleRecord = some sampleSmell ∧
    sampleSmell.jsonifyLocationKeys ≠
      ["module", "python_object", "line", "column", "end_line", "path"] ∧
    "severity" ∈ sampleSmell.jsonifyLocationKeys ∧
    "type" ∈ sampleSmell.jsonifyLocationKeys := by
  refine ⟨by decide, ?_, ?_, ?_⟩ <;>
    simp [CodeSmell.jsonifyLocationKeys, CodeSmell.jsonify, Json.get,
      Json.keys, List.lookup]

/-- C1 (amended): for every `CodeSmell` built from a valid record, the
`location` member of the parsed `jsonify()` output is a nested object (not a
stringified form) whose keys are the `Location`'s own fields `module`,
`python_object`, `line`, `column`, `end_line`, `path`, followed by the two
extra keys `severity` and `type` injected by the serializer's shared
`default` lambda. -/
theorem jsonify_location_keys (r : RawRecord) (c : CodeSmell)
    (_h : CodeSmell.fromRecord r = some c) :
    c.jsonifyLocationKeys =
      ["module", "python_object", "line", "column", "end_line", "path",
       "severity", "type"] := by
  simp [CodeSmell.jsonifyLocationKeys, CodeSmell.jsonify, Json.get,
    Json.keys, List.lookup]

/-- Witness for the amended C1 on the smell built from `sampleRecord`. -/
theorem jsonify_location_keys_witness :
    sampleSmell.jsonifyLocationKeys =
      ["module", "python_object", "line", "column", "end_line", "path",
       "severity", "type"] :=
  jsonify_location_keys sampleRecord sampleSmell (by decide)

end SmellyPython
